import Mathlib

/-!
Verification of the HTTP tile-server front end (`src/http_server.rs`).

Rust strings are modelled as `List Char` (the paths and request lines involved
are ASCII). Rust standard-library operations used by the source
(`str::split`, `str::rsplit`, `str::rfind`, `str::trim_end_matches`,
`str::parse` for unsigned integers) are embedded as executable Lean functions
with the same observable behaviour; each definition notes the operation it
embeds. Byte buffers (`Vec<u8>`, `&[u8]`) are modelled as `List Nat`.
-/

abbrev RStr := List Char

/-- Helper for `splitOnChar`: prepends a character to the first piece. -/
def consHead (x : Char) : List RStr → List RStr
  | [] => [[x]]
  | t :: ts => (x :: t) :: ts

/-- Embeds Rust `str::split(c)`: splits at every occurrence of `c`, keeping
empty substrings; the result is always non-empty. -/
def splitOnChar (c : Char) : RStr → List RStr
  | [] => [[]]
  | x :: xs =>
    if x = c then [] :: splitOnChar c xs
    else consHead x (splitOnChar c xs)

/-- Joins pieces with the separator character: left inverse view of
`splitOnChar`. -/
def joinOnChar (c : Char) : List RStr → RStr
  | [] => []
  | [s] => s
  | s :: rest => s ++ c :: joinOnChar c rest

/-- Helper for `stripQuery`: scanning a reversed string, drops characters up to
and including the first `'?'`; `none` when no `'?'` occurs. -/
def dropToQuery : RStr → Option RStr
  | [] => none
  | c :: rest => if c = '?' then some rest else dropToQuery rest

/-- Embeds the query-string strip in `extract_tile_from_path`
(`path.rfind` of the question mark, then the slice before it): everything from
the last `'?'` onward is removed; without a `'?'` the string is unchanged. -/
def stripQuery (s : RStr) : RStr :=
  match dropToQuery s.reverse with
  | some r => r.reverse
  | none => s

/-- Helper for `trimEndPng`, working on the reversed string: repeatedly strips
a leading reversed `".png"` (the characters `g`, `n`, `p`, `.`). -/
def trimRevPng : RStr → RStr
  | 'g' :: 'n' :: 'p' :: '.' :: rest => trimRevPng rest
  | s => s

/-- Embeds Rust `str::trim_end_matches(".png")`: removes every repetition of a
trailing `".png"`. -/
def trimEndPng (s : RStr) : RStr :=
  (trimRevPng s.reverse).reverse

/-- Character-level digit test and value, as in Rust unsigned-integer parsing
(ASCII digits only). -/
def digitVal (c : Char) : Option Nat :=
  if '0' ≤ c ∧ c ≤ '9' then some (c.toNat - 48) else none

/-- Helper for `parseUnsigned`: folds decimal digits left to right; fails on
the first non-digit character. -/
def digitsToNat (acc : Nat) : RStr → Option Nat
  | [] => some acc
  | c :: cs =>
    match digitVal c with
    | some d => digitsToNat (acc * 10 + d) cs
    | none => none

/-- Embeds Rust `str::parse` for an unsigned-integer target: an optional
leading `'+'` followed by at least one ASCII digit. The tile coordinate type
is modelled as `Nat` (see `Tile`), so no overflow bound applies. -/
def parseUnsigned (s : RStr) : Option Nat :=
  match s with
  | [] => none
  | c :: rest =>
    if c = '+' then
      match rest with
      | [] => none
      | _ => digitsToNat 0 rest
    else digitsToNat 0 (c :: rest)

/-- Modelled from the spec: the `Tile` type and `MAX_ZOOM` constant live in the
tiling collaborator (`crate::tile`), which is outside this core. The spec data
model says a tile is three unsigned integers with invariant
`zoom <= MAX_ZOOM` (a constant owned by the collaborator), so coordinates are
`Nat` and `MAX_ZOOM` is a parameter (`maxZoom`) of the functions below. -/
structure Tile where
  zoom : Nat
  x : Nat
  y : Nat
deriving DecidableEq, Repr

/-- Embeds the tail of `extract_tile_from_path`: the length-3 check on the
collected tokens, the `reverse`, the indexing `(tokens[0], tokens[1],
tokens[2])` as `(z_str, x_str, y_str)`, the three parses and the
`z <= MAX_ZOOM` guard. The argument is the `rsplit` token list truncated by
`take 3`, so its entries are in right-to-left order: `[y_str, x_str, z_str]`. -/
def tileFromTokens (maxZoom : Nat) : List RStr → Option Tile
  | [ys, xs, zs] =>
    match parseUnsigned zs, parseUnsigned xs, parseUnsigned ys with
    | some z, some x, some y => if z ≤ maxZoom then some ⟨z, x, y⟩ else none
    | _, _, _ => none
  | _ => none

/-- Embeds `extract_tile_from_path` after the query strip: trim trailing
`".png"` repetitions, `rsplit('/')` (split then reverse), `take 3`, then
`tileFromTokens`. -/
def tileFromRealPath (maxZoom : Nat) (real_path : RStr) : Option Tile :=
  tileFromTokens maxZoom (((splitOnChar '/' (trimEndPng real_path)).reverse).take 3)

/-- Embeds `extract_tile_from_path` in `src/http_server.rs`: strip the query
string from the last `'?'`, then parse the remaining path as a tile address. -/
def extract_tile_from_path (maxZoom : Nat) (path : RStr) : Option Tile :=
  tileFromRealPath maxZoom (stripQuery path)

/-- Embeds `extract_path_from_request` in `src/http_server.rs`: split the
request line on single spaces, require exactly 3 tokens, method `GET`, version
`HTTP/1.1` or `HTTP/1.0`, and return the middle token verbatim. Errors
(`bail!`) are modelled as `none`. -/
def extract_path_from_request (first_line : RStr) : Option RStr :=
  match splitOnChar ' ' first_line with
  | [method, path, version] =>
    if method = "GET".toList ∧ (version = "HTTP/1.1".toList ∨ version = "HTTP/1.0".toList)
    then some path
    else none
  | _ => none

/-- Embeds the header construction in `serve_data`: the six lines joined with
CRLF (the last two empty strings produce the terminating blank line). -/
def serveDataHeader (content_type : RStr) (len : Nat) : RStr :=
  List.intercalate ['\r', '\n']
    [ "HTTP/1.1 200 OK".toList,
      "Content-Type: ".toList ++ content_type,
      "Content-Length: ".toList ++ (Nat.repr len).toList,
      "Connection: close".toList,
      [],
      [] ]

/-- Embeds `serve_data` in `src/http_server.rs`. The TCP stream is modelled by
the sequence of `write_all` payloads the function issues (header bytes first,
then the raw body); `header_write_ok` says whether the header write succeeded.
On header-write failure the body write is skipped and the function still
returns normally (it is total and raises nothing), matching the source. -/
def serve_data (header_write_ok : Bool) (data : List Nat) (content_type : RStr) :
    List (List Nat) :=
  let header := serveDataHeader content_type data.length
  if header_write_ok then [header.map Char.toNat, data]
  else [header.map Char.toNat]

/-- Per-connection inputs of `try_handle_connection` that come from the outside
world: the first line read from the stream (`none` when no line is available),
the result the `Drawer` collaborator returns from `draw_tile` for this
request, whether the header write on this stream succeeds, and the perf-stats
HTML bytes. -/
structure ConnInput where
  firstLine : Option RStr
  drawTile : Except Unit (List Nat)
  headerWriteOk : Bool
  perfHtml : List Nat

/-- Outcome of `try_handle_connection`: a normal `Ok(())` return or a `bail!`
error, each carrying the writes performed, or a Rust panic (the `.unwrap()` on
`draw_tile`'s result), which does not return to the caller. -/
inductive TryOutcome where
  | ok (writes : List (List Nat))
  | err (writes : List (List Nat))
  | panicked
deriving DecidableEq

/-- Embeds `try_handle_connection` in `src/http_server.rs`: read one line
(bail on failure), parse the request line (propagating its error with `?`),
serve the perf-stats page when the feature is on and the path matches, else
parse a tile address (bail on no match), then call `draw_tile` and `.unwrap()`
its result — an `Err` from the drawer panics — and serve the PNG bytes. -/
def try_handle_connection (maxZoom : Nat) (perfStatsEnabled : Bool) (inp : ConnInput) :
    TryOutcome :=
  match inp.firstLine with
  | none => .err []
  | some line =>
    match extract_path_from_request line with
    | none => .err []
    | some path =>
      if perfStatsEnabled = true ∧ path = "/perf_stats".toList then
        .ok (serve_data inp.headerWriteOk inp.perfHtml ("text/html".toList))
      else
        match extract_tile_from_path maxZoom path with
        | none => .err []
        | some _tile =>
          match inp.drawTile with
          | .error _ => .panicked
          | .ok png => .ok (serve_data inp.headerWriteOk png ("image/png".toList))

/-- Outcome of `handle_connection` for one connection: it finished (with the
writes performed and whether an error line was logged), or the thread panicked
out of it. -/
inductive ConnOutcome where
  | done (writes : List (List Nat)) (logged : Bool)
  | panicked
deriving DecidableEq

/-- Embeds `handle_connection` in `src/http_server.rs`: a returned error is
caught and turned into one log line (`eprintln!`), a normal return logs
nothing; a panic inside `try_handle_connection` propagates past the handler. -/
def handle_connection (maxZoom : Nat) (perfStatsEnabled : Bool) (inp : ConnInput) :
    ConnOutcome :=
  match try_handle_connection maxZoom perfStatsEnabled inp with
  | .ok w => .done w false
  | .err w => .done w true
  | .panicked => .panicked

/-- Embeds the worker loop in `run_server` (`while let Ok(stream) =
receiver.recv()` calling `handle_connection`): the queued connections are
processed in FIFO order; a panic unwinds the worker thread, so the remaining
queue entries are never processed. -/
def worker_process (maxZoom : Nat) (perfStatsEnabled : Bool) :
    List ConnInput → List ConnOutcome
  | [] => []
  | c :: cs =>
    match handle_connection maxZoom perfStatsEnabled c with
    | .panicked => [.panicked]
    | o => o :: worker_process maxZoom perfStatsEnabled cs

/-- Embeds the accept loop in `run_server`: `thread_id` starts at 0; each
`Ok`-accepted connection (a `some`) is sent to worker `thread_id` and then
`thread_id = (thread_id + 1) % senders.len()`; an `Err` accept (a `none`) is
skipped without advancing. The result pairs each dispatched connection with
the worker index it was sent to, in arrival order. -/
def dispatch_loop (poolSize : Nat) : List (Option α) → Nat → List (Nat × α)
  | [], _ => []
  | none :: rest, i => dispatch_loop poolSize rest i
  | some c :: rest, i => (i, c) :: dispatch_loop poolSize rest ((i + 1) % poolSize)

/-- Stated from the claim's words, for comparison with `dispatch_loop`: the
k-th successfully accepted connection goes to worker `k % poolSize`. -/
def roundRobinSpec (poolSize : Nat) : List α → Nat → List (Nat × α)
  | [], _ => []
  | c :: rest, k => (k % poolSize, c) :: roundRobinSpec poolSize rest (k + 1)

/-- Decimal digit character (used by the spec-side path formatter). -/
def digitChar : Nat → Char
  | 0 => '0'
  | 1 => '1'
  | 2 => '2'
  | 3 => '3'
  | 4 => '4'
  | 5 => '5'
  | 6 => '6'
  | 7 => '7'
  | 8 => '8'
  | 9 => '9'
  | _ => '*'

/-- Helper for `natToRStr`: accumulates the decimal digits of `n` in front of
`acc`. -/
def natDigitsAux : Nat → RStr → RStr
  | 0, acc => acc
  | n + 1, acc => natDigitsAux ((n + 1) / 10) (digitChar ((n + 1) % 10) :: acc)
decreasing_by exact Nat.div_lt_self (Nat.succ_pos n) (by omega)

/-- Standard decimal rendering of a natural number (spec-side formatting for
the round-trip claims). -/
def natToRStr (n : Nat) : RStr :=
  match n with
  | 0 => ['0']
  | _ => natDigitsAux n []

/-- Ten to the power of the number of decimal digits of `n` (with
`tenPowLen 0 = 1`); measures how far `natDigitsAux` shifts an accumulator. -/
def tenPowLen : Nat → Nat
  | 0 => 1
  | n + 1 => tenPowLen ((n + 1) / 10) * 10
decreasing_by exact Nat.div_lt_self (Nat.succ_pos n) (by omega)

/-- The path `/z/x/y.png` for a tile, as the round-trip claims format it. -/
def tilePath (z x y : Nat) : RStr :=
  '/' :: natToRStr z ++ '/' :: natToRStr x ++ '/' :: natToRStr y ++ ".png".toList

/-- Concatenation of `n` copies of `".png"`. -/
def pngRepeat : Nat → RStr
  | 0 => []
  | n + 1 => pngRepeat n ++ ".png".toList

/-! Lemmas about the embedded Rust string operations. -/

theorem splitOnChar_ne_nil (c : Char) (l : RStr) : splitOnChar c l ≠ [] := by
  cases l with
  | nil => simp [splitOnChar]
  | cons x xs =>
    simp only [splitOnChar]
    split
    · simp
    · cases h : splitOnChar c xs <;> simp [consHead]

theorem splitOnChar_cons (c x : Char) (xs : RStr) :
    splitOnChar c (x :: xs) =
      if x = c then [] :: splitOnChar c xs else consHead x (splitOnChar c xs) := rfl

theorem splitOnChar_append (c : Char) (a b : RStr) :
    splitOnChar c (a ++ c :: b) = splitOnChar c a ++ splitOnChar c b := by
  induction a with
  | nil => simp [splitOnChar]
  | cons x xs ih =>
    rw [List.cons_append, splitOnChar_cons c x (xs ++ c :: b), splitOnChar_cons c x xs]
    by_cases hx : x = c
    · rw [if_pos hx, if_pos hx, ih]
      rfl
    · rw [if_neg hx, if_neg hx, ih]
      cases h : splitOnChar c xs with
      | nil => exact absurd h (splitOnChar_ne_nil c xs)
      | cons t ts => simp [consHead]

theorem splitOnChar_eq_single (c : Char) (s : RStr) (h : c ∉ s) :
    splitOnChar c s = [s] := by
  induction s with
  | nil => rfl
  | cons x xs ih =>
    have hx : x ≠ c := fun hxc => h (hxc ▸ List.mem_cons_self x xs)
    have hxs : c ∉ xs := fun hc => h (List.mem_cons_of_mem x hc)
    simp only [splitOnChar, if_neg hx, ih hxs, consHead]

theorem joinOnChar_splitOnChar (c : Char) (l : RStr) :
    joinOnChar c (splitOnChar c l) = l := by
  induction l with
  | nil => rfl
  | cons x xs ih =>
    rw [splitOnChar_cons]
    by_cases hx : x = c
    · rw [if_pos hx]
      cases h : splitOnChar c xs with
      | nil => exact absurd h (splitOnChar_ne_nil c xs)
      | cons t ts =>
        rw [h] at ih
        simp only [joinOnChar, List.nil_append]
        rw [ih, ← hx]
    · rw [if_neg hx]
      cases h : splitOnChar c xs with
      | nil => exact absurd h (splitOnChar_ne_nil c xs)
      | cons t ts =>
        rw [h] at ih
        cases ts with
        | nil => simp only [consHead, joinOnChar] at ih ⊢; rw [ih]
        | cons u us =>
          simp only [consHead, joinOnChar] at ih ⊢
          rw [List.cons_append, ih]

theorem not_mem_of_mem_splitOnChar (c : Char) (l s : RStr) (h : s ∈ splitOnChar c l) :
    c ∉ s := by
  induction l generalizing s with
  | nil =>
    simp only [splitOnChar, List.mem_singleton] at h
    subst h; simp
  | cons x xs ih =>
    rw [splitOnChar_cons] at h
    by_cases hx : x = c
    · rw [if_pos hx, List.mem_cons] at h
      rcases h with h1 | h1
      · subst h1; simp
      · exact ih s h1
    · rw [if_neg hx] at h
      cases hs : splitOnChar c xs with
      | nil => exact absurd hs (splitOnChar_ne_nil c xs)
      | cons t ts =>
        rw [hs, consHead, List.mem_cons] at h
        rcases h with h1 | h1
        · subst h1
          intro hc
          rcases List.mem_cons.mp hc with hc | hc
          · exact hx hc.symm
          · exact ih t (hs.symm ▸ List.mem_cons_self t ts) hc
        · exact ih s (hs.symm ▸ List.mem_cons_of_mem t h1)

theorem dropToQuery_eq_none_iff (s : RStr) : dropToQuery s = none ↔ '?' ∉ s := by
  induction s with
  | nil => simp [dropToQuery]
  | cons x xs ih =>
    by_cases hx : x = '?'
    · subst hx; simp [dropToQuery]
    · simp only [dropToQuery, if_neg hx, ih, List.mem_cons]
      constructor
      · intro hn hmem
        rcases hmem with hmem | hmem
        · exact hx hmem.symm
        · exact hn hmem
      · intro hn hmem
        exact hn (Or.inr hmem)

theorem dropToQuery_cons (x : Char) (xs : RStr) :
    dropToQuery (x :: xs) = if x = '?' then some xs else dropToQuery xs := rfl

theorem dropToQuery_append (a b : RStr) (h : '?' ∉ a) :
    dropToQuery (a ++ b) = dropToQuery b := by
  induction a with
  | nil => rfl
  | cons x xs ih =>
    have hx : x ≠ '?' := fun hxc => h (hxc ▸ List.mem_cons_self x xs)
    have hxs : '?' ∉ xs := fun hc => h (List.mem_cons_of_mem x hc)
    rw [List.cons_append, dropToQuery_cons, if_neg hx, ih hxs]

theorem stripQuery_of_not_mem (s : RStr) (h : '?' ∉ s) : stripQuery s = s := by
  have : dropToQuery s.reverse = none :=
    (dropToQuery_eq_none_iff s.reverse).mpr (by simpa using h)
  simp [stripQuery, this]

theorem stripQuery_append (p t : RStr) (ht : '?' ∉ t) :
    stripQuery (p ++ t) = if '?' ∈ p then stripQuery p else p ++ t := by
  have hrev : dropToQuery (t.reverse ++ p.reverse) = dropToQuery p.reverse :=
    dropToQuery_append t.reverse p.reverse (by simpa using ht)
  by_cases hp : '?' ∈ p
  · rw [if_pos hp]
    cases hd : dropToQuery p.reverse with
    | none =>
      exact absurd ((dropToQuery_eq_none_iff p.reverse).mp hd) (by simpa using hp)
    | some r =>
      unfold stripQuery
      rw [List.reverse_append, hrev, hd]
  · rw [if_neg hp]
    have hnone : dropToQuery p.reverse = none :=
      (dropToQuery_eq_none_iff p.reverse).mpr (by simpa using hp)
    unfold stripQuery
    rw [List.reverse_append, hrev, hnone]

theorem trimRevPng_png (rest : RStr) :
    trimRevPng ('g' :: 'n' :: 'p' :: '.' :: rest) = trimRevPng rest := rfl

theorem trimRevPng_of_head_ne (c : Char) (s : RStr) (h : c ≠ 'g') :
    trimRevPng (c :: s) = c :: s := by
  unfold trimRevPng
  split
  · rename_i heq
    injection heq with h1 _
    exact absurd h1 h
  · rfl

theorem trimEndPng_append_png (p : RStr) :
    trimEndPng (p ++ ".png".toList) = trimEndPng p := by
  unfold trimEndPng
  rw [show (".png".toList : RStr) = ['.', 'p', 'n', 'g'] from rfl, List.reverse_append]
  rfl

theorem trimEndPng_of_rev_head_ne (s : RStr) (c : Char) (rest : RStr)
    (hs : s.reverse = c :: rest) (hc : c ≠ 'g') : trimEndPng s = s := by
  unfold trimEndPng
  rw [hs, trimRevPng_of_head_ne c rest hc, ← hs, List.reverse_reverse]


/-! Lemmas about decimal rendering and parsing. -/

theorem digitVal_digitChar (d : Nat) (hd : d < 10) : digitVal (digitChar d) = some d := by
  interval_cases d <;> decide

theorem digitChar_ne_special (d : Nat) (hd : d < 10) :
    digitChar d ≠ '/' ∧ digitChar d ≠ '?' ∧ digitChar d ≠ 'g' ∧ digitChar d ≠ '+' := by
  interval_cases d <;> decide

theorem digitsToNat_cons (a : Nat) (c : Char) (s : RStr) :
    digitsToNat a (c :: s) =
      match digitVal c with
      | some d => digitsToNat (a * 10 + d) s
      | none => none := rfl

theorem digitsToNat_natDigitsAux (n : Nat) : ∀ a acc,
    digitsToNat a (natDigitsAux n acc) = digitsToNat (a * tenPowLen n + n) acc := by
  induction n using Nat.strong_induction_on with
  | _ n ih =>
    intro a acc
    match n with
    | 0 => simp [natDigitsAux, tenPowLen]
    | m + 1 =>
      have hq : (m + 1) / 10 < m + 1 := Nat.div_lt_self (Nat.succ_pos m) (by omega)
      have hr : (m + 1) % 10 < 10 := Nat.mod_lt _ (by omega)
      simp only [natDigitsAux]
      rw [ih _ hq, digitsToNat_cons, digitVal_digitChar _ hr]
      have harg : (a * tenPowLen ((m + 1) / 10) + (m + 1) / 10) * 10 + (m + 1) % 10 =
          a * tenPowLen (m + 1) + (m + 1) := by
        have hdm : 10 * ((m + 1) / 10) + (m + 1) % 10 = m + 1 := Nat.div_add_mod (m + 1) 10
        have hpow : tenPowLen (m + 1) = tenPowLen ((m + 1) / 10) * 10 := by
          simp only [tenPowLen]
        rw [hpow, ← Nat.mul_assoc]
        omega
      show digitsToNat ((a * tenPowLen ((m + 1) / 10) + (m + 1) / 10) * 10 + (m + 1) % 10) acc =
        digitsToNat (a * tenPowLen (m + 1) + (m + 1)) acc
      rw [harg]

theorem natDigitsAux_head (n : Nat) : ∀ acc, 0 < n →
    ∃ d rest, natDigitsAux n acc = digitChar d :: rest ∧ d < 10 := by
  induction n using Nat.strong_induction_on with
  | _ n ih =>
    intro acc hn
    match n, hn with
    | m + 1, _ =>
      simp only [natDigitsAux]
      by_cases hq : (m + 1) / 10 = 0
      · rw [hq]
        simp only [natDigitsAux]
        exact ⟨(m + 1) % 10, acc, rfl, Nat.mod_lt _ (by omega)⟩
      · exact ih ((m + 1) / 10) (Nat.div_lt_self (Nat.succ_pos m) (by omega)) _
          (Nat.pos_of_ne_zero hq)

theorem mem_natDigitsAux (n : Nat) : ∀ acc c, c ∈ natDigitsAux n acc →
    c ∈ acc ∨ ∃ d, d < 10 ∧ c = digitChar d := by
  induction n using Nat.strong_induction_on with
  | _ n ih =>
    intro acc c hc
    match n with
    | 0 => exact Or.inl (by simpa [natDigitsAux] using hc)
    | m + 1 =>
      simp only [natDigitsAux] at hc
      rcases ih ((m + 1) / 10) (Nat.div_lt_self (Nat.succ_pos m) (by omega)) _ c hc
        with h1 | h1
      · rcases List.mem_cons.mp h1 with h2 | h2
        · exact Or.inr ⟨(m + 1) % 10, Nat.mod_lt _ (by omega), h2⟩
        · exact Or.inl h2
      · exact Or.inr h1

theorem mem_natToRStr (n : Nat) (c : Char) (hc : c ∈ natToRStr n) :
    ∃ d, d < 10 ∧ c = digitChar d := by
  match n with
  | 0 => exact ⟨0, by omega, by simpa [natToRStr] using hc⟩
  | m + 1 =>
    have hna : natToRStr (m + 1) = natDigitsAux (m + 1) [] := rfl
    rw [hna] at hc
    rcases mem_natDigitsAux (m + 1) [] c hc with h1 | h1
    · simp at h1
    · exact h1

theorem natToRStr_ne_nil (n : Nat) : natToRStr n ≠ [] := by
  match n with
  | 0 => simp [natToRStr]
  | m + 1 =>
    obtain ⟨d, rest, heq, -⟩ := natDigitsAux_head (m + 1) [] (Nat.succ_pos m)
    show natDigitsAux (m + 1) [] ≠ []
    rw [heq]
    simp

theorem slash_not_mem_natToRStr (n : Nat) : '/' ∉ natToRStr n := by
  intro h
  obtain ⟨d, hd, hc⟩ := mem_natToRStr n _ h
  exact (digitChar_ne_special d hd).1 hc.symm

theorem query_not_mem_natToRStr (n : Nat) : '?' ∉ natToRStr n := by
  intro h
  obtain ⟨d, hd, hc⟩ := mem_natToRStr n _ h
  exact (digitChar_ne_special d hd).2.1 hc.symm

theorem natToRStr_reverse_head (n : Nat) :
    ∃ c rest, (natToRStr n).reverse = c :: rest ∧ c ≠ 'g' := by
  cases hrev : (natToRStr n).reverse with
  | nil =>
    have : natToRStr n = [] := by
      have h2 := congrArg List.reverse hrev
      simpa using h2
    exact absurd this (natToRStr_ne_nil n)
  | cons c rest =>
    have hc : c ∈ natToRStr n := by
      have h3 : c ∈ (natToRStr n).reverse := by rw [hrev]; exact List.mem_cons_self c rest
      simpa using h3
    obtain ⟨d, hd, hcd⟩ := mem_natToRStr n c hc
    exact ⟨c, rest, rfl, hcd ▸ (digitChar_ne_special d hd).2.2.1⟩

theorem parseUnsigned_cons (c : Char) (rest : RStr) :
    parseUnsigned (c :: rest) =
      if c = '+' then
        match rest with
        | [] => none
        | _ => digitsToNat 0 rest
      else digitsToNat 0 (c :: rest) := rfl

theorem parseUnsigned_natToRStr (n : Nat) : parseUnsigned (natToRStr n) = some n := by
  match n with
  | 0 => decide
  | m + 1 =>
    obtain ⟨d, rest, heq, hd⟩ := natDigitsAux_head (m + 1) [] (Nat.succ_pos m)
    have hna : natToRStr (m + 1) = natDigitsAux (m + 1) [] := rfl
    rw [hna, heq, parseUnsigned_cons, if_neg]
    · rw [← heq, digitsToNat_natDigitsAux (m + 1) 0 []]
      simp [digitsToNat]
    · exact (digitChar_ne_special d hd).2.2.2

/-! The main parsing lemma: a path whose last three segments are decimal
renderings of `z`, `x`, `y`, with a single trailing `".png"`, parses to the
tile exactly when `z` is within the zoom bound. -/

theorem not_mem_append_chr (c : Char) (a b : RStr) (ha : c ∉ a) (hb : c ∉ b) :
    c ∉ a ++ b := by
  simp [List.mem_append, ha, hb]

theorem not_mem_cons_chr (c d : Char) (b : RStr) (hcd : c ≠ d) (hb : c ∉ b) :
    c ∉ d :: b := by
  simp [List.mem_cons, hcd, hb]

theorem trimEndPng_append_of_rev_head (B ys : RStr) (c : Char) (rest : RStr)
    (hys : ys.reverse = c :: rest) (hc : c ≠ 'g') : trimEndPng (B ++ ys) = B ++ ys := by
  apply trimEndPng_of_rev_head_ne (B ++ ys) c (rest ++ B.reverse) _ hc
  rw [List.reverse_append, hys, List.cons_append]

theorem tileFromTokens_three (mz : Nat) (ys xs zs : RStr) :
    tileFromTokens mz [ys, xs, zs] =
      match parseUnsigned zs, parseUnsigned xs, parseUnsigned ys with
      | some z, some x, some y => if z ≤ mz then some ⟨z, x, y⟩ else none
      | _, _, _ => none := rfl

theorem extract_tile_from_path_parts (maxZoom : Nat) (pre : RStr) (z x y : Nat)
    (hpre : '?' ∉ pre) :
    extract_tile_from_path maxZoom
        (pre ++ '/' :: (natToRStr z ++ '/' :: (natToRStr x ++ '/' ::
          (natToRStr y ++ ".png".toList)))) =
      if z ≤ maxZoom then some ⟨z, x, y⟩ else none := by
  have hqA : '?' ∉ pre ++ '/' :: (natToRStr z ++ '/' :: (natToRStr x ++ '/' ::
      natToRStr y)) :=
    not_mem_append_chr _ _ _ hpre
      (not_mem_cons_chr _ _ _ (by decide)
        (not_mem_append_chr _ _ _ (query_not_mem_natToRStr z)
          (not_mem_cons_chr _ _ _ (by decide)
            (not_mem_append_chr _ _ _ (query_not_mem_natToRStr x)
              (not_mem_cons_chr _ _ _ (by decide) (query_not_mem_natToRStr y))))))
  have hPA : pre ++ '/' :: (natToRStr z ++ '/' :: (natToRStr x ++ '/' ::
      (natToRStr y ++ ".png".toList))) =
      (pre ++ '/' :: (natToRStr z ++ '/' :: (natToRStr x ++ '/' :: natToRStr y))) ++
        ".png".toList := by
    simp [List.append_assoc]
  have hq : '?' ∉ (pre ++ '/' :: (natToRStr z ++ '/' :: (natToRStr x ++ '/' ::
      natToRStr y))) ++ ".png".toList :=
    not_mem_append_chr _ _ _ hqA (by decide)
  obtain ⟨c, rest, hrev, hcg⟩ := natToRStr_reverse_head y
  have hBA : pre ++ '/' :: (natToRStr z ++ '/' :: (natToRStr x ++ '/' :: natToRStr y)) =
      (pre ++ '/' :: (natToRStr z ++ '/' :: (natToRStr x ++ ['/']))) ++ natToRStr y := by
    simp [List.append_assoc]
  have htrim :
      trimEndPng (pre ++ '/' :: (natToRStr z ++ '/' :: (natToRStr x ++ '/' ::
        natToRStr y))) =
        pre ++ '/' :: (natToRStr z ++ '/' :: (natToRStr x ++ '/' :: natToRStr y)) := by
    rw [hBA]
    exact trimEndPng_append_of_rev_head _ _ c rest hrev hcg
  have hsplit :
      splitOnChar '/' (pre ++ '/' :: (natToRStr z ++ '/' :: (natToRStr x ++ '/' ::
        natToRStr y))) =
        splitOnChar '/' pre ++ [natToRStr z, natToRStr x, natToRStr y] := by
    rw [splitOnChar_append '/' pre, splitOnChar_append '/' (natToRStr z),
      splitOnChar_append '/' (natToRStr x),
      splitOnChar_eq_single '/' (natToRStr z) (slash_not_mem_natToRStr z),
      splitOnChar_eq_single '/' (natToRStr x) (slash_not_mem_natToRStr x),
      splitOnChar_eq_single '/' (natToRStr y) (slash_not_mem_natToRStr y)]
    rfl
  unfold extract_tile_from_path tileFromRealPath
  rw [hPA, stripQuery_of_not_mem _ hq, trimEndPng_append_png, htrim, hsplit,
    List.reverse_append]
  simp only [List.reverse_cons, List.reverse_nil, List.nil_append, List.cons_append,
    List.append_assoc, List.take_succ_cons, List.take_zero]
  rw [tileFromTokens_three, parseUnsigned_natToRStr, parseUnsigned_natToRStr,
    parseUnsigned_natToRStr]

/-! Further helper lemmas: png-suffix invariance, query handling, zoom bound,
the formatted tile path, the response header, and round-robin dispatch. -/

theorem extract_tile_from_path_append_png (mz : Nat) (p : RStr) :
    extract_tile_from_path mz (p ++ ".png".toList) = extract_tile_from_path mz p := by
  unfold extract_tile_from_path
  rw [stripQuery_append p (".png".toList) (by decide)]
  by_cases hp : '?' ∈ p
  · rw [if_pos hp]
  · rw [if_neg hp, stripQuery_of_not_mem p hp]
    unfold tileFromRealPath
    rw [trimEndPng_append_png]

theorem extract_tile_from_path_pngRepeat (mz : Nat) (p : RStr) (n : Nat) :
    extract_tile_from_path mz (p ++ pngRepeat n) = extract_tile_from_path mz p := by
  induction n with
  | zero => simp [pngRepeat]
  | succ m ih =>
    have hstep : p ++ pngRepeat (m + 1) = (p ++ pngRepeat m) ++ ".png".toList := by
      simp [pngRepeat, List.append_assoc]
    rw [hstep, extract_tile_from_path_append_png, ih]

theorem stripQuery_single (p q : RStr) (hq : '?' ∉ q) :
    stripQuery (p ++ '?' :: q) = p := by
  unfold stripQuery
  have h1 : (p ++ '?' :: q).reverse = q.reverse ++ '?' :: p.reverse := by
    rw [List.reverse_append, List.reverse_cons]
    simp [List.append_assoc]
  rw [h1, dropToQuery_append _ _ (by simpa using hq), dropToQuery_cons, if_pos rfl]
  simp

theorem tileFromTokens_zoom_le (mz : Nat) (toks : List RStr) (t : Tile)
    (h : tileFromTokens mz toks = some t) : t.zoom ≤ mz := by
  match toks with
  | [] => simp [tileFromTokens] at h
  | [a] => simp [tileFromTokens] at h
  | [a, b] => simp [tileFromTokens] at h
  | a :: b :: c :: d :: rest => simp [tileFromTokens] at h
  | [a, b, c] =>
    rw [tileFromTokens_three] at h
    cases hz : parseUnsigned c with
    | none => rw [hz] at h; simp at h
    | some z =>
      cases hx : parseUnsigned b with
      | none => rw [hz, hx] at h; simp at h
      | some x =>
        cases hy : parseUnsigned a with
        | none => rw [hz, hx, hy] at h; simp at h
        | some y =>
          rw [hz, hx, hy] at h
          simp only [] at h
          split_ifs at h with hle
          injection h with h2
          subst h2
          exact hle

theorem extract_tile_zoom_le (mz : Nat) (p : RStr) (t : Tile)
    (h : extract_tile_from_path mz p = some t) : t.zoom ≤ mz := by
  unfold extract_tile_from_path tileFromRealPath at h
  exact tileFromTokens_zoom_le _ _ _ h

theorem extract_tilePath (mz z x y : Nat) :
    extract_tile_from_path mz (tilePath z x y) =
      if z ≤ mz then some ⟨z, x, y⟩ else none := by
  rw [show tilePath z x y = [] ++ '/' :: (natToRStr z ++ '/' :: (natToRStr x ++ '/' ::
      (natToRStr y ++ ".png".toList))) from by simp [tilePath, List.append_assoc]]
  exact extract_tile_from_path_parts mz [] z x y (by simp)

theorem serveDataHeader_eq (ct : RStr) (L : Nat) :
    serveDataHeader ct L =
      "HTTP/1.1 200 OK\r\nContent-Type: ".toList ++ ct ++
      "\r\nContent-Length: ".toList ++ (Nat.repr L).toList ++
      "\r\nConnection: close\r\n\r\n".toList := by
  show List.intercalate ['\r', '\n'] _ = _
  rw [List.intercalate]
  simp only [List.intersperse, List.flatten]
  simp [List.append_assoc]

theorem extract_path_eq_some_iff (l p : RStr) :
    extract_path_from_request l = some p ↔
      ' ' ∉ p ∧ (l = "GET".toList ++ ' ' :: (p ++ ' ' :: "HTTP/1.1".toList) ∨
                 l = "GET".toList ++ ' ' :: (p ++ ' ' :: "HTTP/1.0".toList)) := by
  constructor
  · intro h
    unfold extract_path_from_request at h
    cases hs : splitOnChar ' ' l with
    | nil => rw [hs] at h; simp at h
    | cons a t1 =>
      cases t1 with
      | nil => rw [hs] at h; simp at h
      | cons b t2 =>
        cases t2 with
        | nil => rw [hs] at h; simp at h
        | cons v t3 =>
          cases t3 with
          | cons d t4 => rw [hs] at h; simp at h
          | nil =>
            rw [hs] at h
            have h2 : (if a = "GET".toList ∧
                (v = "HTTP/1.1".toList ∨ v = "HTTP/1.0".toList)
                then some b else none) = some p := h
            split_ifs at h2 with hcond
            injection h2 with hbp
            subst hbp
            have hjoin := joinOnChar_splitOnChar ' ' l
            rw [hs] at hjoin
            have hl : a ++ ' ' :: (b ++ ' ' :: v) = l := by
              simpa [joinOnChar] using hjoin
            have hps : ' ' ∉ b :=
              not_mem_of_mem_splitOnChar ' ' l b (by rw [hs]; simp)
            obtain ⟨ha, hv⟩ := hcond
            subst ha
            refine ⟨hps, ?_⟩
            rcases hv with hv | hv
            · subst hv; exact Or.inl hl.symm
            · subst hv; exact Or.inr hl.symm
  · rintro ⟨hp, hl | hl⟩
    · subst hl
      unfold extract_path_from_request
      rw [splitOnChar_append ' ' ("GET".toList) (p ++ ' ' :: "HTTP/1.1".toList),
        splitOnChar_append ' ' p ("HTTP/1.1".toList),
        splitOnChar_eq_single ' ' ("GET".toList) (by decide),
        splitOnChar_eq_single ' ' p hp,
        splitOnChar_eq_single ' ' ("HTTP/1.1".toList) (by decide)]
      simp
    · subst hl
      unfold extract_path_from_request
      rw [splitOnChar_append ' ' ("GET".toList) (p ++ ' ' :: "HTTP/1.0".toList),
        splitOnChar_append ' ' p ("HTTP/1.0".toList),
        splitOnChar_eq_single ' ' ("GET".toList) (by decide),
        splitOnChar_eq_single ' ' p hp,
        splitOnChar_eq_single ' ' ("HTTP/1.0".toList) (by decide)]
      simp

theorem serve_data_eq (ok : Bool) (data : List Nat) (ct : RStr) :
    serve_data ok data ct =
      (("HTTP/1.1 200 OK\r\nContent-Type: ".toList ++ ct ++
        "\r\nContent-Length: ".toList ++ (Nat.repr data.length).toList ++
        "\r\nConnection: close\r\n\r\n".toList).map Char.toNat) ::
        (if ok then [data] else []) := by
  cases ok <;> simp [serve_data, serveDataHeader_eq]

theorem dispatch_loop_eq_spec {α : Type} (P : Nat) (conns : List (Option α)) :
    ∀ i k, i = k % P →
      dispatch_loop P conns i = roundRobinSpec P (conns.filterMap id) k := by
  induction conns with
  | nil => intro i k _; simp [dispatch_loop, roundRobinSpec]
  | cons o rest ih =>
    intro i k hik
    cases o with
    | none =>
      simp only [dispatch_loop]
      rw [show (none :: rest : List (Option α)).filterMap id = rest.filterMap id from
        by simp]
      exact ih i k hik
    | some c =>
      simp only [dispatch_loop]
      rw [show (some c :: rest : List (Option α)).filterMap id = c :: rest.filterMap id
        from by simp]
      simp only [roundRobinSpec]
      rw [hik]
      congr 1
      apply ih
      exact Nat.mod_add_mod k P 1

theorem count_roundRobinSpec {α : Type} (P w : Nat) (xs : List α) : ∀ k,
    ((roundRobinSpec P xs k).map Prod.fst).count w =
      ((List.range' k xs.length).map (· % P)).count w := by
  induction xs with
  | nil => intro k; rfl
  | cons c rest ih =>
    intro k
    simp only [roundRobinSpec, List.length_cons, List.range'_succ, List.map_cons,
      List.count_cons, ih (k + 1)]

theorem count_mod_range (P w : Nat) (hP : 0 < P) (hw : w < P) (N : Nat) :
    ((List.range N).map (· % P)).count w = N / P + (if w < N % P then 1 else 0) := by
  induction N with
  | zero => simp
  | succ n ih =>
    rw [List.range_succ, List.map_append, List.count_append, ih]
    have hrP : n % P < P := Nat.mod_lt n hP
    have hq := Nat.div_add_mod n P
    rcases Nat.lt_or_ge (n % P + 1) P with hcase | hcase
    · have hn1 : n + 1 = P * (n / P) + (n % P + 1) := by omega
      have hdiv : (n + 1) / P = n / P := by
        rw [hn1, Nat.mul_add_div hP, Nat.div_eq_of_lt hcase, Nat.add_zero]
      have hmod : (n + 1) % P = n % P + 1 := by
        rw [hn1, Nat.mul_add_mod, Nat.mod_eq_of_lt hcase]
      rw [hdiv, hmod]
      simp only [List.map_cons, List.map_nil, List.count_cons, List.count_nil,
        beq_iff_eq]
      split_ifs <;> omega
    · have hPeq : n % P + 1 = P := by omega
      have hmul : P * (n / P + 1) = P * (n / P) + P := by ring
      have hn1 : n + 1 = P * (n / P + 1) := by omega
      have hdiv : (n + 1) / P = n / P + 1 := by
        rw [hn1, Nat.mul_div_cancel_left _ hP]
      have hmod : (n + 1) % P = 0 := by
        rw [hn1, Nat.mul_mod_right]
      rw [hdiv, hmod]
      simp only [List.map_cons, List.map_nil, List.count_cons, List.count_nil,
        beq_iff_eq]
      split_ifs <;> omega

theorem ceil_div_of_mod_pos (N P : Nat) (hP : 0 < P) (hr : 0 < N % P) :
    (N + P - 1) / P = N / P + 1 := by
  have hq := Nat.div_add_mod N P
  have hrP : N % P < P := Nat.mod_lt N hP
  have hmul : P * (N / P + 1) = P * (N / P) + P := by ring
  have h1 : N + P - 1 = P * (N / P + 1) + (N % P - 1) := by omega
  have h2 : N % P - 1 < P := by omega
  rw [h1, Nat.mul_add_div hP, Nat.div_eq_of_lt h2, Nat.add_zero]

theorem handle_connection_silent (mz : Nat) (perf : Bool) (inp : ConnInput)
    (h : inp.firstLine = none ∨
      (∃ line, inp.firstLine = some line ∧ extract_path_from_request line = none) ∨
      (∃ line path, inp.firstLine = some line ∧
        extract_path_from_request line = some path ∧
        ¬(perf = true ∧ path = "/perf_stats".toList) ∧
        extract_tile_from_path mz path = none)) :
    handle_connection mz perf inp = ConnOutcome.done [] true := by
  have htry : try_handle_connection mz perf inp = TryOutcome.err [] := by
    rcases h with h1 | ⟨line, h1, h2⟩ | ⟨line, path, h1, h2, h3, h4⟩
    · simp [try_handle_connection, h1]
    · simp [try_handle_connection, h1, h2]
    · simp only [try_handle_connection, h1, h2, h4]
      rw [if_neg h3]
  simp [handle_connection, htry]

theorem worker_process_cons (mz : Nat) (perf : Bool) (inp : ConnInput)
    (rest : List ConnInput)
    (h : handle_connection mz perf inp = ConnOutcome.done [] true) :
    worker_process mz perf (inp :: rest) =
      ConnOutcome.done [] true :: worker_process mz perf rest := by
  simp [worker_process, h]

/-! Claim theorems. -/

/-- C1: the claim says a `draw_tile` failure on a valid tile request is
confined to that connection and the worker keeps serving its queue. The code
instead calls `.unwrap()` on the drawer's result, so a render failure panics
out of `try_handle_connection` (past the handler boundary), and the worker
thread dies without processing the rest of its queue: here the second queued
connection is never served. This theorem evaluates the code at that failing
input. -/
theorem C1_render_failure_panics_worker :
    try_handle_connection 18 false
        ⟨some ("GET /5/10/12.png HTTP/1.1".toList), Except.error (), true, []⟩ =
      TryOutcome.panicked ∧
    worker_process 18 false
        [⟨some ("GET /5/10/12.png HTTP/1.1".toList), Except.error (), true, []⟩,
         ⟨some ("GET /5/10/12.png HTTP/1.1".toList), Except.ok [0], true, []⟩] =
      [ConnOutcome.panicked] :=
  ⟨rfl, rfl⟩

/-- C2 counterexample: the claim says the parser keeps at most 3 NON-EMPTY
segments from the right, so a trailing slash would be harmless. In the code
`rsplit('/')` keeps empty segments, so `/5/10/12.png/` — whose last three
non-empty segments are 5, 10, 12 with zoom 5 ≤ 18 — yields no match, while
the same path without the trailing slash parses. -/
theorem C2_counterexample :
    extract_tile_from_path 18 ("/5/10/12.png/".toList) = none ∧
    extract_tile_from_path 18 ("/5/10/12.png".toList) = some ⟨5, 10, 12⟩ :=
  ⟨by decide, by decide⟩

/-- C2 (amended): the parser takes the last 3 segments INCLUDING empty ones;
for every path whose last three segments are the decimal renderings of
`z`, `x`, `y` followed by `".png"`, with no `'?'` earlier in the path, it
returns the tile exactly when `z ≤ MAX_ZOOM`. -/
theorem C2_last_three_segments (maxZoom : Nat) (pre : RStr) (z x y : Nat)
    (hpre : '?' ∉ pre) :
    extract_tile_from_path maxZoom
        (pre ++ '/' :: (natToRStr z ++ '/' :: (natToRStr x ++ '/' ::
          (natToRStr y ++ ".png".toList)))) =
      if z ≤ maxZoom then some ⟨z, x, y⟩ else none :=
  extract_tile_from_path_parts maxZoom pre z x y hpre

/-- Witness for C2: a concrete prefix `/tiles` with tile 5/10/12. -/
theorem C2_witness :
    '?' ∉ ("/tiles".toList : RStr) ∧
    extract_tile_from_path 18
        ("/tiles".toList ++ '/' :: (natToRStr 5 ++ '/' :: (natToRStr 10 ++ '/' ::
          (natToRStr 12 ++ ".png".toList)))) =
      if 5 ≤ 18 then some ⟨5, 10, 12⟩ else none :=
  ⟨by decide, C2_last_three_segments 18 ("/tiles".toList) 5 10 12 (by decide)⟩

/-- C3: `extract_path_from_request` succeeds exactly on a line made of three
space-separated tokens `GET`, the path, and `HTTP/1.1` or `HTTP/1.0` (the
path itself containing no space, since splitting is on every single space),
and then returns the path token verbatim; in particular
`GET /5/10/12.png HTTP/1.1` yields `/5/10/12.png`. -/
theorem C3_request_line_exact :
    (∀ l p : RStr, extract_path_from_request l = some p ↔
      ' ' ∉ p ∧ (l = "GET".toList ++ ' ' :: (p ++ ' ' :: "HTTP/1.1".toList) ∨
                 l = "GET".toList ++ ' ' :: (p ++ ' ' :: "HTTP/1.0".toList))) ∧
    extract_path_from_request ("GET /5/10/12.png HTTP/1.1".toList) =
      some ("/5/10/12.png".toList) :=
  ⟨extract_path_eq_some_iff, by decide⟩

/-- C4: `serve_data` writes exactly the header bytes
`HTTP/1.1 200 OK\r\nContent-Type: <ct>\r\nContent-Length: <L>\r\nConnection:
close\r\n\r\n` with `L` the exact byte length of the body and no other
headers, followed by the raw body bytes; when the header write fails the body
write is skipped entirely and the function still returns normally. -/
theorem C4_response_exact (ok : Bool) (data : List Nat) (ct : RStr) :
    serve_data ok data ct =
      (("HTTP/1.1 200 OK\r\nContent-Type: ".toList ++ ct ++
        "\r\nContent-Length: ".toList ++ (Nat.repr data.length).toList ++
        "\r\nConnection: close\r\n\r\n".toList).map Char.toNat) ::
        (if ok then [data] else []) :=
  serve_data_eq ok data ct

/-- C5: round trip — for every tile with `zoom ≤ MAX_ZOOM`, formatting it as
`/zoom/x/y.png` and parsing that path yields back the identical tile. -/
theorem C5_round_trip (maxZoom z x y : Nat) (h : z ≤ maxZoom) :
    extract_tile_from_path maxZoom (tilePath z x y) = some ⟨z, x, y⟩ := by
  rw [extract_tilePath, if_pos h]

/-- Witness for C5 at zoom 5, x 10, y 12 with MAX_ZOOM 18. -/
theorem C5_witness :
    5 ≤ 18 ∧ extract_tile_from_path 18 (tilePath 5 10 12) = some ⟨5, 10, 12⟩ :=
  ⟨by decide, C5_round_trip 18 5 10 12 (by decide)⟩

/-- C6: every successful parse satisfies `zoom ≤ MAX_ZOOM` (so zoom
`MAX_ZOOM + 1` yields no match), and no other bound is imposed: every
`z ≤ MAX_ZOOM` and arbitrary `x`, `y` — including `x, y ≥ 2 ^ z` — parse to
the corresponding tile. -/
theorem C6_zoom_bound_only (maxZoom : Nat) :
    (∀ p t, extract_tile_from_path maxZoom p = some t → t.zoom ≤ maxZoom) ∧
    (∀ x y, extract_tile_from_path maxZoom (tilePath (maxZoom + 1) x y) = none) ∧
    (∀ z x y, z ≤ maxZoom →
      extract_tile_from_path maxZoom (tilePath z x y) = some ⟨z, x, y⟩) := by
  refine ⟨fun p t h => extract_tile_zoom_le maxZoom p t h, fun x y => ?_,
    fun z x y hz => ?_⟩
  · rw [extract_tilePath, if_neg (by omega)]
  · rw [extract_tilePath, if_pos hz]

/-- Witness for C6: zoom 19 is rejected at MAX_ZOOM 18, while zoom 5 with
coordinates far beyond `2 ^ 5` is accepted. -/
theorem C6_witness :
    extract_tile_from_path 18 (tilePath 19 10 12) = none ∧
    (5 ≤ 18 ∧
      extract_tile_from_path 18 (tilePath 5 1000000 2000000) =
        some ⟨5, 1000000, 2000000⟩) :=
  ⟨(C6_zoom_bound_only 18).2.1 10 12,
   by decide, (C6_zoom_bound_only 18).2.2 5 1000000 2000000 (by decide)⟩

/-- C7 counterexample: the claim quantifies over EVERY suffix beginning with
`'?'`. With suffix `?a?b` on path `/5/10/12.png`, the parser strips only from
the LAST `'?'`, leaving `/5/10/12.png?a` whose `y` segment fails to parse, so
the result (none) differs from first stripping everything from the last `'?'`
onward and parsing the remainder (some tile). -/
theorem C7_counterexample :
    extract_tile_from_path 18 ("/5/10/12.png".toList ++ '?' :: "a?b".toList) = none ∧
    extract_tile_from_path 18
        (stripQuery ("/5/10/12.png".toList ++ '?' :: "a?b".toList)) =
      some ⟨5, 10, 12⟩ :=
  ⟨by decide, by decide⟩

/-- C7 (amended): when the combined path contains only the single `'?'` that
starts the suffix, parsing the path with the query suffix equals parsing after
stripping from the `'?'` onward, which equals parsing the bare path. -/
theorem C7_single_query_ignored (maxZoom : Nat) (p q : RStr)
    (hp : '?' ∉ p) (hq : '?' ∉ q) :
    extract_tile_from_path maxZoom (p ++ '?' :: q) =
      extract_tile_from_path maxZoom (stripQuery (p ++ '?' :: q)) ∧
    extract_tile_from_path maxZoom (p ++ '?' :: q) =
      extract_tile_from_path maxZoom p := by
  have hs : stripQuery (p ++ '?' :: q) = p := stripQuery_single p q hq
  have h1 : extract_tile_from_path maxZoom (p ++ '?' :: q) = tileFromRealPath maxZoom p := by
    unfold extract_tile_from_path
    rw [hs]
  have h2 : extract_tile_from_path maxZoom p = tileFromRealPath maxZoom p := by
    unfold extract_tile_from_path
    rw [stripQuery_of_not_mem p hp]
  constructor
  · rw [h1, hs, h2]
  · rw [h1, h2]

/-- Witness for C7: the spec's example `/5/10/12.png?layer=base`. -/
theorem C7_witness :
    '?' ∉ ("/5/10/12.png".toList : RStr) ∧ '?' ∉ ("layer=base".toList : RStr) ∧
    (extract_tile_from_path 18 ("/5/10/12.png".toList ++ '?' :: "layer=base".toList) =
        extract_tile_from_path 18
          (stripQuery ("/5/10/12.png".toList ++ '?' :: "layer=base".toList)) ∧
      extract_tile_from_path 18 ("/5/10/12.png".toList ++ '?' :: "layer=base".toList) =
        extract_tile_from_path 18 ("/5/10/12.png".toList)) :=
  ⟨by decide, by decide, C7_single_query_ignored 18 _ _ (by decide) (by decide)⟩

/-- C8: for a connection whose request line is missing, malformed (including a
non-GET method or an unsupported version), or whose path matches neither the
stats endpoint nor a valid tile address, the handler performs zero writes and
converts the failure into a log line (`done [] true`), and the worker goes on
to process the rest of its queue unchanged. -/
theorem C8_silent_failure_contract (maxZoom : Nat) (perf : Bool) (inp : ConnInput)
    (h : inp.firstLine = none ∨
      (∃ line, inp.firstLine = some line ∧ extract_path_from_request line = none) ∨
      (∃ line path, inp.firstLine = some line ∧
        extract_path_from_request line = some path ∧
        ¬(perf = true ∧ path = "/perf_stats".toList) ∧
        extract_tile_from_path maxZoom path = none)) :
    handle_connection maxZoom perf inp = ConnOutcome.done [] true ∧
    ∀ rest, worker_process maxZoom perf (inp :: rest) =
      ConnOutcome.done [] true :: worker_process maxZoom perf rest := by
  have hh := handle_connection_silent maxZoom perf inp h
  exact ⟨hh, fun rest => worker_process_cons maxZoom perf inp rest hh⟩

/-- Witness for C8: a POST request line is rejected with zero writes and one
log line. -/
theorem C8_witness :
    handle_connection 18 false
        ⟨some ("POST / HTTP/1.1".toList), Except.ok [], true, []⟩ =
      ConnOutcome.done [] true :=
  (C8_silent_failure_contract 18 false
      ⟨some ("POST / HTTP/1.1".toList), Except.ok [], true, []⟩
      (Or.inr (Or.inl ⟨_, rfl, by decide⟩))).1

/-- C9: the accept loop dispatches the k-th successfully accepted connection
(counting from 0) to worker `k % P`, in arrival order; hence over the whole
sequence each worker `w < P` receives `⌊N/P⌋` or `⌈N/P⌉` (written
`(N + P - 1) / P`) of the `N` dispatched connections. -/
theorem C9_round_robin_dispatch {α : Type} (P : Nat) (conns : List (Option α))
    (hP : 0 < P) :
    dispatch_loop P conns 0 = roundRobinSpec P (conns.filterMap id) 0 ∧
    ∀ w, w < P →
      ((dispatch_loop P conns 0).map Prod.fst).count w =
          (conns.filterMap id).length / P ∨
      ((dispatch_loop P conns 0).map Prod.fst).count w =
          ((conns.filterMap id).length + P - 1) / P := by
  have hmain := dispatch_loop_eq_spec P conns 0 0 (by simp)
  refine ⟨hmain, fun w hw => ?_⟩
  rw [hmain, count_roundRobinSpec P w _ 0]
  rw [show List.range' 0 ((conns.filterMap id).length) =
    List.range ((conns.filterMap id).length) from (List.range_eq_range' _).symm]
  rw [count_mod_range P w hP hw]
  by_cases hcase : w < (conns.filterMap id).length % P
  · right
    rw [ceil_div_of_mod_pos _ P hP (by omega), if_pos hcase]
  · left
    rw [if_neg hcase, Nat.add_zero]

/-- Witness for C9: pool of 2, four accepts with one OS-level failure. -/
theorem C9_witness :
    dispatch_loop 2 [some 10, none, some 20, some 30] 0 =
      roundRobinSpec 2 ([some 10, none, some 20, some 30].filterMap id) 0 :=
  (C9_round_robin_dispatch 2 [some 10, none, some 20, some 30] (by decide)).1

/-- C10: `trim_end_matches(".png")` strips every repetition of the suffix, so
any path that parses to a tile still parses to the same tile after appending
any number of extra `".png"` suffixes. -/
theorem C10_png_repetitions (maxZoom : Nat) (p : RStr) (n : Nat) (t : Tile)
    (h : extract_tile_from_path maxZoom p = some t) :
    extract_tile_from_path maxZoom (p ++ pngRepeat n) = some t := by
  rw [extract_tile_from_path_pngRepeat, h]

/-- Witness for C10: `/5/10/12.png.png` parses to the same tile as
`/5/10/12.png`. -/
theorem C10_witness :
    extract_tile_from_path 18 ("/5/10/12.png".toList) = some ⟨5, 10, 12⟩ ∧
    extract_tile_from_path 18 ("/5/10/12.png".toList ++ pngRepeat 1) =
      some ⟨5, 10, 12⟩ :=
  ⟨by decide, C10_png_repetitions 18 _ 1 _ (by decide)⟩
